import Mathlib

set_option maxRecDepth 100000

/-
Verification of the `apply-figma-export.js` importer/synthesizer and the
`CodeSection.vue` exporter of this repository.  Strings are embedded as
`List Char`; each definition mirrors the corresponding JavaScript function.
-/

namespace FigmaExport

abbrev Str := List Char

/-- Conversion from Lean string literals to the embedded string type. -/
def lit (s : String) : Str := s.data

/-- The JavaScript whitespace class `\s` restricted to the characters that can
actually occur in this pipeline (ASCII whitespace and NBSP). -/
def isSpaceJS (c : Char) : Bool :=
  c = ' ' || c = '\t' || c = '\n' || c = '\r' ||
  c = Char.ofNat 11 || c = Char.ofNat 12 || c = Char.ofNat 160

def isAsciiUpper (c : Char) : Bool := 'A' ≤ c && c ≤ 'Z'
def isAsciiLower (c : Char) : Bool := 'a' ≤ c && c ≤ 'z'
def isAsciiDigit (c : Char) : Bool := '0' ≤ c && c ≤ '9'
def isAsciiAlphanum (c : Char) : Bool := isAsciiUpper c || isAsciiLower c || isAsciiDigit c

/-- `String.prototype.toLowerCase` on the ASCII range (all language tags are ASCII). -/
def toLowerJS (c : Char) : Char :=
  if isAsciiUpper c then Char.ofNat (c.toNat + 32) else c

def lowerStr (s : Str) : Str := s.map toLowerJS

/-- `String.prototype.trim`: drop JS whitespace from both ends. -/
def trimJS (s : Str) : Str :=
  ((s.dropWhile isSpaceJS).reverse.dropWhile isSpaceJS).reverse

/-- Drop trailing JS whitespace only (used to model a trailing `\s*$` in a regex). -/
def rtrimJS (s : Str) : Str := (s.reverse.dropWhile isSpaceJS).reverse

/-- If `p` is a leading literal of `s`, return the remainder, else `none`. -/
def dropPre : Str → Str → Option Str
  | [], s => some s
  | _ :: _, [] => none
  | p :: ps, c :: cs => if c = p then dropPre ps cs else none

/-- Whether `s` ends with the literal `p`. -/
def endsWithLit (p s : Str) : Bool :=
  decide ((s.reverse.take p.length) = p.reverse)

/-- `String.prototype.includes`: substring occurrence test. -/
def containsSub (pat : Str) : Str → Bool
  | [] => pat.isEmpty
  | c :: rest => (dropPre pat (c :: rest)).isSome || containsSub pat rest

/-- Split a character list at every occurrence of `sep` (every occurrence is a
separator; a trailing separator yields a trailing empty piece). -/
def splitChar (sep : Char) : Str → List Str
  | [] => [[]]
  | c :: rest =>
    let r := splitChar sep rest
    if c = sep then [] :: r
    else
      match r with
      | [] => [[c]]
      | h :: t => (c :: h) :: t

/-- Drop a single trailing carriage return from a line, if present. -/
def stripTrailCr (l : Str) : Str :=
  if l.getLast? = some '\r' then l.dropLast else l

/-- `content.split(/\r?\n/)`: split on newlines; a `\r` immediately before a
`\n` is part of the separator, a `\r` anywhere else is kept. -/
def splitNlJS (s : Str) : List Str :=
  let ps := splitChar '\n' s
  match ps.getLast? with
  | none => []
  | some last => ps.dropLast.map stripTrailCr ++ [last]

/-- `raw.replace(/\t/g, '')`: remove every tab character. -/
def stripTabs (s : Str) : Str := s.filter (fun c => ¬ (c = '\t'))

/-- `Array.prototype.join(sep)` over embedded strings. -/
def joinSep (sep : Str) : List Str → Str
  | [] => []
  | [x] => x
  | x :: y :: rest => x ++ sep ++ joinSep sep (y :: rest)

/-- Decimal rendering of a natural number (template-literal interpolation). -/
def natToStr (n : Nat) : Str := (Nat.repr n).data

/-! ## The name sanitizer (`sanitizeName`, source lines 25–30) -/

/-- The character class `[a-zA-Z0-9\-\_ ]` kept by the first sanitization pass. -/
def allowedChar (c : Char) : Bool :=
  isAsciiAlphanum c || c = '-' || c = '_' || c = ' '

/-- Replace every run of JS whitespace by a single underscore
(`.replace(/\s+/g, '_')`). -/
def collapseWs : Str → Str :=
  go false
where
  go : Bool → Str → Str
  | _, [] => []
  | prevWs, c :: rest =>
    if isSpaceJS c then
      if prevWs then go true rest else '_' :: go true rest
    else c :: go false rest

/-- `sanitizeName` before the `|| 'Generated'` fallback. -/
def sanitizeCore (name : Str) : Str :=
  collapseWs (trimJS (name.filter allowedChar))

/-- `sanitizeName`: strip disallowed characters, trim, collapse whitespace to
underscores, and fall back to `'Generated'` when the result is empty. -/
def sanitizeName (name : Str) : Str :=
  let r := sanitizeCore name
  if r = [] then lit "Generated" else r

/-! ## The block-grammar parser (`parseBlocks`, source lines 32–65) -/

structure Section where
  title : Str
  lang : Str
  code : Str
deriving DecidableEq, Repr

structure Component where
  name : Str
  sections : List Section
deriving DecidableEq, Repr

/-- Match of `/^\/\/\s*=====\s*Component:\s*(.*)\s*=====\s*$/`, returning the
greedy capture `m[1]` (everything up to the final `=====` of the line). -/
def parseCompHeader (l : Str) : Option Str := do
  let r1 ← dropPre (lit "//") l
  let r2 := r1.dropWhile isSpaceJS
  let r3 ← dropPre (lit "=====") r2
  let r4 := r3.dropWhile isSpaceJS
  let r5 ← dropPre (lit "Component:") r4
  let r6 := r5.dropWhile isSpaceJS
  let r7 := rtrimJS r6
  if endsWithLit (lit "=====") r7 then some (r7.take (r7.length - 5)) else none

/-- Match of `/^\/\/\s*----\s*(.*)\s*\((.*)\)\s*----\s*$/`, returning the two
greedy captures (title text and language text).  With both groups greedy the
match fixes the trailing `----`, the `)` before it, and the last `(` before
that. -/
def parseSecHeader (l : Str) : Option (Str × Str) := do
  let r1 ← dropPre (lit "//") l
  let r2 := r1.dropWhile isSpaceJS
  let r3 ← dropPre (lit "----") r2
  let r := r3.dropWhile isSpaceJS
  let r2' := rtrimJS r
  if endsWithLit (lit "----") r2' then
    let r3' := r2'.take (r2'.length - 4)
    let r4' := rtrimJS r3'
    if endsWithLit (lit ")") r4' then
      let r5' := r4'.take (r4'.length - 1)
      -- the last '(' of r5' splits title from language
      let revAfter := r5'.reverse.takeWhile (fun c => ¬ (c = '('))
      if revAfter.length = r5'.length then none
      else
        let lang := revAfter.reverse
        let title := r5'.take (r5'.length - revAfter.length - 1)
        some (title, lang)
    else none
  else none

/-- Append a string to the `code` of the last section of the list (the parser's
`curSection` always aliases the last pushed section of the open component). -/
def appendToLast (ss : List Section) (x : Str) : List Section :=
  match ss.getLast? with
  | none => []
  | some s => ss.dropLast ++ [⟨s.title, s.lang, s.code ++ x⟩]

/-- Close the in-progress component, if any. -/
def pushCur (done : List Component) (cur : Option Component) : List Component :=
  done ++ cur.toList

/-- One iteration of the parser loop: component header, section header, or body
line.  `curSection` is non-null exactly when the open component has at least
one section, and always aliases its last section. -/
def lineStep (st : List Component × Option Component) (raw : Str) :
    List Component × Option Component :=
  let line := stripTabs raw
  match parseCompHeader line with
  | some nm => (pushCur st.1 st.2, some ⟨trimJS nm, []⟩)
  | none =>
    match parseSecHeader line, st.2 with
    | some (t, lg), some c =>
      (st.1, some ⟨c.name, c.sections ++ [⟨trimJS t, lowerStr (trimJS lg), []⟩]⟩)
    | _, _ =>
      match st.2 with
      | some c =>
        if c.sections = [] then st
        else (st.1, some ⟨c.name, appendToLast c.sections (raw ++ ['\n'])⟩)
      | none => st

/-- Run the parser loop from a given state over a list of raw lines and close
the final component. -/
def parseLinesFrom (st : List Component × Option Component) (ls : List Str) :
    List Component :=
  let fin := ls.foldl lineStep st
  pushCur fin.1 fin.2

def parseLines (ls : List Str) : List Component := parseLinesFrom ([], none) ls

/-- `parseBlocks`: split the input into lines and run the scanner. -/
def parseBlocks (content : Str) : List Component := parseLines (splitNlJS content)

example :
    parseBlocks (lit "// ===== Component: Foo =====\n// ---- Root (html) ----\n<div>hi</div>\n")
      = [⟨lit "Foo", [⟨lit "Root", lit "html", lit "<div>hi</div>\n\n"⟩]⟩] := by decide

/-! ## The SFC synthesizer (`buildSFC`, source lines 67–157) -/

/-- `escapeHtml` replaces `&`, then `<`, then `>` by their entities; since the
first replacement introduces no `<` or `>`, the three sequential global
replaces equal this single character-wise pass. -/
def escChar (c : Char) : Str :=
  if c = '&' then lit "&amp;"
  else if c = '<' then lit "&lt;"
  else if c = '>' then lit "&gt;"
  else [c]

def escapeHtml (s : Str) : Str := s.foldr (fun c acc => escChar c ++ acc) []

def isHtmlLang (l : Str) : Bool :=
  decide (l = lit "html" ∨ l = lit "vue" ∨ l = lit "template" ∨ l = lit "component")

def isJsLang (l : Str) : Bool :=
  decide (l = lit "js" ∨ l = lit "jsx" ∨ l = lit "tsx")

structure Parts where
  html : List Str
  css : List Str
  js : List Str
deriving DecidableEq, Repr

/-- Classification of one section (the `for (const sec of component.sections)`
loop): css-containing tags beat the exact template and script tags; anything
else becomes escaped preformatted template content. -/
def classifyStep (acc : Parts) (s : Section) : Parts :=
  if s.lang = [] then acc
  else if containsSub (lit "css") s.lang then { acc with css := acc.css ++ [s.code] }
  else if isHtmlLang s.lang then { acc with html := acc.html ++ [s.code] }
  else if isJsLang s.lang then { acc with js := acc.js ++ [s.code] }
  else { acc with html := acc.html ++ [lit "<pre>" ++ escapeHtml s.code ++ lit "</pre>"] }

def partsOf (c : Component) : Parts := c.sections.foldl classifyStep ⟨[], [], []⟩

def fallbackTpl (name : Str) : Str :=
  lit "\n<div class=\"generated-root\">\n  <!-- generated component: " ++ name ++
  lit " -->\n  <div>" ++ name ++ lit "</div>\n</div>\n"

def templateBase (c : Component) : Str :=
  let p := partsOf c
  if p.html = [] then fallbackTpl c.name else joinSep (lit "\n") p.html

/-- Test of `/^\{[\s\S]*\}$/` on an (already trimmed) string. -/
def braceWrapped (s : Str) : Bool :=
  decide (s.head? = some '\x7b') && decide (s.getLast? = some '\x7d')

/-- A character matched by `[a-zA-Z-]`. -/
def isAlphaHyphen (c : Char) : Bool := isAsciiUpper c || isAsciiLower c || c = '-'

/-- Match of `\s*[a-zA-Z-]+\s*:` at one position. -/
def matchDeclAt (s : Str) : Bool :=
  let s1 := s.dropWhile isSpaceJS
  let idPart := s1.takeWhile isAlphaHyphen
  let s2 := (s1.dropWhile isAlphaHyphen).dropWhile isSpaceJS
  !idPart.isEmpty && decide (s2.head? = some ':')

/-- Test of `/^\s*[a-zA-Z-]+\s*:/m`: the pattern may start at the beginning of
the text or right after any newline. -/
def looksLikeDecls (s : Str) : Bool :=
  matchDeclAt s || go s
where
  go : Str → Bool
  | [] => false
  | c :: rest => (decide (c = '\n') && matchDeclAt rest) || go rest

/-- `v.replace(/'/g, "\\'")`. -/
def escQuote (v : Str) : Str :=
  v.foldr (fun c acc => if c = '\x27' then '\x5c' :: '\x27' :: acc else c :: acc) []

/-- Global replace of `-x` (hyphen then lowercase letter) by `X`, the
camel-casing pass applied to each css property name. -/
def camelize : Str → Str
  | [] => []
  | '-' :: c :: rest =>
    if isAsciiLower c then Char.ofNat (c.toNat - 32) :: camelize rest
    else '-' :: camelize (c :: rest)
  | c :: rest => c :: camelize rest

/-- `ln.indexOf(':')`-based split into the text before and after the first colon. -/
def splitFirstColon (l : Str) : Option (Str × Str) :=
  if l.any (fun c => c = ':') then
    some (l.takeWhile (fun c => ¬ (c = ':')), (l.dropWhile (fun c => ¬ (c = ':'))).drop 1)
  else none

/-- JS object insertion: assigning to an existing key updates it in place,
otherwise the key is appended (property insertion order). -/
def upsert (m : List (Str × Str)) (k v : Str) : List (Str × Str) :=
  if m.any (fun p => p.1 = k) then m.map (fun p => if p.1 = k then (k, v) else p)
  else m ++ [(k, v)]

/-- `cssDeclsToJsObject`: split declarations on semicolons, camel-case each
property, and print a quoted JS object literal.  The source splits on
`/;\s*\n?/` and then trims and drops empty pieces; splitting on `;` alone
yields the same pieces after that same trim-and-filter. -/
def cssDeclsToJsObject (cssText : Str) : Str :=
  let pieces := ((splitChar ';' cssText).map trimJS).filter (fun p => ¬ (p = []))
  let obj := pieces.foldl (fun m ln =>
    match splitFirstColon ln with
    | none => m
    | some pv => upsert m (camelize (trimJS pv.1)) (trimJS pv.2)) []
  let entries := obj.map (fun kv => lit "  " ++ kv.1 ++ lit ": \x27" ++ escQuote kv.2 ++ lit "\x27")
  lit "\x7b\n" ++ joinSep (lit ",\n") entries ++ lit "\n\x7d"

def wrapStyle (tpl : Str) : Str :=
  lit "\n<div :style=\"inlineStyle\">\n" ++ tpl ++ lit "\n</div>\n"

structure Resolved where
  tpl : Str
  setup : Str
  css : List Str
deriving DecidableEq, Repr

/-- The script-resolution cascade of `buildSFC` (source lines 119–144): the
first js part decides between inline-style object and raw setup code; with no
js parts, declaration-looking css is converted to an inline style object and
removed from the style block. -/
def resolveScript (tpl : Str) (cssParts jsParts : List Str) : Resolved :=
  match jsParts with
  | f :: _ =>
    let first := trimJS f
    if braceWrapped first then
      ⟨if containsSub (lit ":style") tpl then tpl else wrapStyle tpl,
       lit "const inlineStyle = " ++ first ++ lit "\n", cssParts⟩
    else
      ⟨tpl, joinSep (lit "\n") jsParts ++ lit "\n", cssParts⟩
  | [] =>
    match cssParts with
    | [] => ⟨tpl, [], cssParts⟩
    | _ :: _ =>
      if looksLikeDecls (joinSep (lit "\n") cssParts) then
        ⟨if containsSub (lit ":style") tpl then tpl else wrapStyle tpl,
         lit "const inlineStyle = " ++ cssDeclsToJsObject (joinSep (lit "\n") cssParts) ++ lit "\n",
         []⟩
      else ⟨tpl, [], cssParts⟩

def scriptOf (compName setup : Str) : Str :=
  if setup = [] then
    lit "<script>\nexport default \x7b name: \x27" ++ compName ++ lit "\x27 \x7d\n</script>\n"
  else lit "<script setup>\n" ++ setup ++ lit "\n</script>\n"

def styleOf (cssParts : List Str) : Str :=
  if cssParts = [] then []
  else lit "<style scoped>\n" ++ joinSep (lit "\n") cssParts ++ lit "\n</style>\n"

def isStrictChar (c : Char) : Bool := isAsciiAlphanum c || c = '_'

def nameBaseOf (c : Component) (idx : Nat) : Str :=
  sanitizeName (if c.name = [] then lit "Component_" ++ natToStr (idx + 1) else c.name)

def compNameOf (c : Component) (idx : Nat) : Str := (nameBaseOf c idx).filter isStrictChar

structure SFC where
  filename : Str
  content : Str
deriving DecidableEq, Repr

def sfcResolved (c : Component) : Resolved :=
  resolveScript (templateBase c) (partsOf c).css (partsOf c).js

def buildSFC (c : Component) (idx : Nat) : SFC :=
  let compName := compNameOf c idx
  let r := sfcResolved c
  let script := scriptOf compName r.setup
  let style := styleOf r.css
  { filename := compName ++ lit ".vue",
    content := lit "<!-- Generated from Figma export: " ++ c.name ++ lit " -->\n<template>\n" ++
      r.tpl ++ lit "\n</template>\n\n" ++ script ++ lit "\n" ++ style }

/-! ## The collision resolver (`writeComponentsToApp`, source lines 185–223) -/

/-- `filename.replace(/\.vue$/i, '')`: strip a final `.vue`, case-insensitively. -/
def stripVue (filename : Str) : Str :=
  if lowerStr ((filename.reverse.take 4).reverse) = lit ".vue" then
    filename.take (filename.length - 4)
  else filename

/-- Match, at the head of `s`, of the pattern
`export default \x7b\s*name:\s*\x27[^\x27]*\x27\s*\x7d` (the source's
`export default` object regex); returns the matched length. -/
def matchExportAt (s : Str) : Option Nat := do
  let r1 ← dropPre (lit "export default \x7b") s
  let r2 := r1.dropWhile isSpaceJS
  let r3 ← dropPre (lit "name:") r2
  let r4 := r3.dropWhile isSpaceJS
  let r5 ← dropPre (lit "\x27") r4
  let r6 := r5.dropWhile (fun c => ¬ (c = '\x27'))
  let r7 ← dropPre (lit "\x27") r6
  let r8 := r7.dropWhile isSpaceJS
  let r9 ← dropPre (lit "\x7d") r8
  some (s.length - r9.length)

/-- Match, at the head of `s`, of the header-comment pattern
`<!-- Generated from Figma export: [^>]*-->`; the greedy `[^>]*` stops at the
first `>`, so the match requires the run before it to end in `--`. -/
def matchHeaderAt (s : Str) : Option Nat := do
  let r1 ← dropPre (lit "<!-- Generated from Figma export: ") s
  let body := r1.takeWhile (fun c => ¬ (c = '>'))
  let r2 := r1.dropWhile (fun c => ¬ (c = '>'))
  if endsWithLit (lit "--") body && !r2.isEmpty then some (s.length - r2.length + 1)
  else none

/-- `String.prototype.replace` with a non-global regex: substitute the first
match found scanning left to right. -/
def replScan (matchAt : Str → Option Nat) (repl : Str) : Str → Str
  | [] => []
  | c :: rest =>
    match matchAt (c :: rest) with
    | some n => repl ++ (c :: rest).drop n
    | none => c :: replScan matchAt repl rest

def replExportDefault (newBase content : Str) : Str :=
  replScan matchExportAt
    (lit "export default \x7b name: \x27" ++ newBase ++ lit "\x27 \x7d") content

def replHeaderComment (name content : Str) : Str :=
  replScan matchHeaderAt
    (lit "<!-- Generated from Figma export: " ++ name ++ lit " -->") content

/-- The collision table (`used` Map); only `get`/`set` are used, so a
shadowing association list is an equivalent model. -/
def getUsed (m : List (Str × Nat)) (k : Str) : Option Nat :=
  (m.find? (fun p => decide (p.1 = k))).map (fun p => p.2)

/-- `c.sections.find(s => ['vue', 'template', 'component'].includes(s.lang))`. -/
def findTpl (c : Component) : Option Section :=
  c.sections.find? (fun s =>
    decide (s.lang = lit "vue" ∨ s.lang = lit "template" ∨ s.lang = lit "component"))

/-- Whether the loop body of `writeComponentsToApp` materializes a component:
its first vue/template/component-tagged section exists and has non-blank code. -/
def qualifies (c : Component) : Bool :=
  match findTpl c with
  | none => false
  | some s => !(trimJS s.code).isEmpty

/-- One iteration of `comps.forEach((c, i) => ...)`; the state is the collision
table plus the list of files written so far (filename and written content). -/
def writeStep (st : List (Str × Nat) × List (Str × Str)) (ic : Nat × Component) :
    List (Str × Nat) × List (Str × Str) :=
  match findTpl ic.2 with
  | none => st
  | some s =>
    if trimJS s.code = [] then st
    else
      let sfc := buildSFC ic.2 ic.1
      let base := stripVue sfc.filename
      match getUsed st.1 base with
      | some n =>
        let count := n + 1
        let newBase := base ++ lit "_" ++ natToStr count
        let content := replHeaderComment ic.2.name (replExportDefault newBase sfc.content)
        ((base, count) :: st.1, st.2 ++ [(newBase ++ lit ".vue", content)])
      | none => ((base, 1) :: st.1, st.2 ++ [(sfc.filename, sfc.content)])

/-- `writeComponentsToApp`, returning the written component files in order
(filename paired with the content written to it). -/
def writeComponentsToApp (comps : List Component) : List (Str × Str) :=
  (comps.enum.foldl writeStep ([], [])).2

/-! ## The command-line entry point (`main`, source lines 244–281) -/

inductive MainOutcome where
  | exitInputMissing
  | exitTargetMissing
  | exitNoComponents
  | exitNoFiles
  | success
deriving DecidableEq, Repr

/-- The observable result of one run: which exit was taken (every `exit*`
constructor is an `process.exit(1)` with a stderr message) and which component
files were written before the run ended. -/
structure MainRun where
  outcome : MainOutcome
  written : List (Str × Str)
deriving DecidableEq, Repr

def mainModel (inputExists targetExists : Bool) (content : Str) : MainRun :=
  if !inputExists then ⟨.exitInputMissing, []⟩
  else if !targetExists then ⟨.exitTargetMissing, []⟩
  else
    let comps := parseBlocks content
    if comps = [] then ⟨.exitNoComponents, []⟩
    else
      let files := writeComponentsToApp comps
      if files = [] then ⟨.exitNoFiles, files⟩
      else ⟨.success, files⟩

/-! ## The exporter (`downloadAllFromFrame`, CodeSection.vue lines 57–106) -/

/-- One code block produced by the external codegen facility for a child node;
`title` stands for the source's `b.title || b.name`. -/
structure CodeBlock where
  title : Str
  lang : Str
  code : Str
deriving DecidableEq, Repr

def compHdrLine (nm : Str) : Str := lit "// ===== Component: " ++ nm ++ lit " ====="

def secHdrLine (b : CodeBlock) : Str :=
  lit "// ---- " ++ b.title ++ lit " (" ++ b.lang ++ lit ") ----"

/-- The `parts` pushed for one child (`nm` stands for `child.name || child.id`). -/
def childParts (nm : Str) (bs : List CodeBlock) : List Str :=
  (compHdrLine nm ++ lit "\n") ::
    (bs.map (fun b => [secHdrLine b ++ lit "\n", b.code, lit "\n"])).flatten

/-- `parts.join('\n')` over all children of the frame. -/
def serializeFrame (children : List (Str × List CodeBlock)) : Str :=
  joinSep (lit "\n") ((children.map (fun ch => childParts ch.1 ch.2)).flatten)

/-! ## Helper lemmas -/

theorem buildSFC_filename (c : Component) (i : Nat) :
    (buildSFC c i).filename = compNameOf c i ++ lit ".vue" := rfl

theorem writeStep_snd_length (u : List (Str × Nat)) (f : List (Str × Str))
    (x : Nat × Component) :
    ((writeStep (u, f) x).2).length = f.length + (if qualifies x.2 then 1 else 0) := by
  unfold writeStep qualifies
  cases hf : findTpl x.2 with
  | none => simp
  | some s =>
    by_cases ht : trimJS s.code = []
    · simp [ht, List.isEmpty_eq_true]
    · cases hg : getUsed u (stripVue (buildSFC x.2 x.1).filename) <;>
        simp [hg, ht, List.isEmpty_eq_true]

theorem writeFold_length (ps : List (Nat × Component)) (u : List (Str × Nat))
    (f : List (Str × Str)) :
    ((ps.foldl writeStep (u, f)).2).length
      = f.length + ps.countP (fun p => qualifies p.2) := by
  induction ps generalizing u f with
  | nil => simp
  | cons x ps ih =>
    have hx := writeStep_snd_length u f x
    calc ((List.foldl writeStep (writeStep (u, f) x) ps).2).length
        = ((writeStep (u, f) x).2).length + ps.countP (fun p => qualifies p.2) := by
          have := ih (writeStep (u, f) x).1 (writeStep (u, f) x).2
          simpa using this
      _ = f.length + (x :: ps).countP (fun p => qualifies p.2) := by
          rw [hx, List.countP_cons]
          cases hq : qualifies x.2 <;> (simp [hq]; try omega)

theorem countP_enumFrom (l : List Component) (n : Nat) :
    (List.enumFrom n l).countP (fun p => qualifies p.2) = l.countP qualifies := by
  induction l generalizing n with
  | nil => rfl
  | cons c l ih => simp [List.enumFrom, List.countP_cons, ih]

theorem writeComponents_length (comps : List Component) :
    (writeComponentsToApp comps).length = (comps.filter qualifies).length := by
  unfold writeComponentsToApp
  rw [writeFold_length]
  have h1 : comps.enum = List.enumFrom 0 comps := rfl
  rw [h1, countP_enumFrom, List.countP_eq_length_filter]
  simp

theorem dropPre_self_append : ∀ p s : Str, dropPre p (p ++ s) = some s := by
  intro p
  induction p with
  | nil => intro s; rfl
  | cons c p ih => intro s; simp [dropPre, ih]

theorem stripVue_concat (x : Str) : stripVue (x ++ lit ".vue") = x := by
  unfold stripVue
  have h2 : ((x ++ lit ".vue").reverse.take 4).reverse = lit ".vue" := by
    have h1 : (x ++ lit ".vue").reverse = lit "euv." ++ x.reverse := by
      simp [lit]
    rw [h1]
    have h4 : (lit "euv.").length = 4 := by decide
    have h5 : (lit "euv." ++ x.reverse).take 4 = lit "euv." := by
      rw [← h4, List.take_left]
    rw [h5]
    decide
  rw [h2]
  have h3 : lowerStr (lit ".vue") = lit ".vue" := by decide
  rw [h3]
  simp [List.length_append, lit]

theorem getUsed_nil (k : Str) : getUsed [] k = none := rfl

theorem getUsed_cons_self (m : List (Str × Nat)) (k : Str) (n : Nat) :
    getUsed ((k, n) :: m) k = some n := by
  simp [getUsed, List.find?]

theorem qualifies_spec (c : Component) (h : qualifies c = true) :
    ∃ s, findTpl c = some s ∧ ¬ (trimJS s.code = []) := by
  unfold qualifies at h
  cases hf : findTpl c with
  | none => rw [hf] at h; exact absurd h (by simp)
  | some s =>
    rw [hf] at h
    refine ⟨s, rfl, ?_⟩
    simpa [List.isEmpty_eq_true] using h

/-- Evaluation of one `writeComponentsToApp` iteration on a qualifying
component, exposing the collision logic. -/
theorem writeStep_eval (u : List (Str × Nat)) (f : List (Str × Str)) (i : Nat)
    (c : Component) (s : Section) (h1 : findTpl c = some s)
    (h2 : ¬ (trimJS s.code = [])) :
    writeStep (u, f) (i, c) =
      match getUsed u (compNameOf c i) with
      | some n =>
        ((compNameOf c i, n + 1) :: u,
         f ++ [(compNameOf c i ++ lit "_" ++ natToStr (n + 1) ++ lit ".vue",
           replHeaderComment c.name
             (replExportDefault (compNameOf c i ++ lit "_" ++ natToStr (n + 1))
               (buildSFC c i).content))])
      | none =>
        ((compNameOf c i, 1) :: u,
         f ++ [((buildSFC c i).filename, (buildSFC c i).content)]) := by
  unfold writeStep
  rw [h1]
  simp only [h2, if_neg, buildSFC_filename, stripVue_concat]
  cases hg : getUsed u (compNameOf c i) <;> simp [hg]

theorem takeWhile_append_all {p : Char → Bool} :
    ∀ (a b : Str), (∀ c ∈ a, p c = true) → (a ++ b).takeWhile p = a ++ b.takeWhile p := by
  intro a
  induction a with
  | nil => intro b _; rfl
  | cons c a ih =>
    intro b h
    have hc : p c = true := h c (by simp)
    simp [List.takeWhile_cons, hc, ih b (fun d hd => h d (by simp [hd]))]

theorem dropWhile_append_all {p : Char → Bool} :
    ∀ (a b : Str), (∀ c ∈ a, p c = true) → (a ++ b).dropWhile p = b.dropWhile p := by
  intro a
  induction a with
  | nil => intro b _; rfl
  | cons c a ih =>
    intro b h
    have hc : p c = true := h c (by simp)
    simp [List.dropWhile_cons, hc, ih b (fun d hd => h d (by simp [hd]))]

theorem replScan_cons_match (matchAt : Str → Option Nat) (repl : Str) (c : Char)
    (cs : Str) (n : Nat) (h : matchAt (c :: cs) = some n) :
    replScan matchAt repl (c :: cs) = repl ++ (c :: cs).drop n := by
  simp [replScan, h]

theorem classify_all_css :
    ∀ (ss : List Section) (acc : Parts),
      (∀ s ∈ ss, containsSub (lit "css") s.lang = true) →
      ss.foldl classifyStep acc = ⟨acc.html, acc.css ++ ss.map (fun s => s.code), acc.js⟩ := by
  intro ss
  induction ss with
  | nil => intro acc _; simp
  | cons s ss ih =>
    intro acc h
    have hcs : containsSub (lit "css") s.lang = true := h s (by simp)
    have hne : ¬ (s.lang = []) := by
      intro he
      rw [he] at hcs
      exact absurd hcs (by decide)
    have hstep : classifyStep acc s = ⟨acc.html, acc.css ++ [s.code], acc.js⟩ := by
      unfold classifyStep
      simp [hne, hcs]
    simp only [List.foldl_cons, hstep]
    rw [ih _ (fun t ht => h t (by simp [ht]))]
    simp

theorem findTpl_none_of_css (c : Component)
    (h : ∀ s ∈ c.sections, containsSub (lit "css") s.lang = true) :
    findTpl c = none := by
  unfold findTpl
  rw [List.find?_eq_none]
  intro s hs
  have hcs := h s hs
  simp only [decide_eq_true_eq]
  intro hd
  rcases hd with h1 | h1 | h1 <;> (rw [h1] at hcs; exact absurd hcs (by decide))

theorem writeComponents_eq_nil_iff (comps : List Component) :
    writeComponentsToApp comps = [] ↔ comps.filter qualifies = [] := by
  have hl := writeComponents_length comps
  constructor
  · intro h
    rw [h] at hl
    simp only [List.length_nil] at hl
    exact List.length_eq_zero.mp hl.symm
  · intro h
    rw [h] at hl
    simp only [List.length_nil] at hl
    exact List.length_eq_zero.mp hl

/-! ## Claim C1 -/

/-- Claim C1 is false as stated: the materialization gate in
`writeComponentsToApp` checks only the tags `vue`, `template` and `component`,
so the claim's own example — a component whose single section is tagged
`(html)` with body `<div>hi</div>` — parses to one component but yields no
synthesized file. -/
theorem C1_counterexample :
    parseBlocks (lit "// ===== Component: Foo =====\n// ---- Root (html) ----\n<div>hi</div>\n")
        = [⟨lit "Foo", [⟨lit "Root", lit "html", lit "<div>hi</div>\n\n"⟩]⟩] ∧
    writeComponentsToApp
        (parseBlocks (lit "// ===== Component: Foo =====\n// ---- Root (html) ----\n<div>hi</div>\n"))
        = [] := by
  constructor
  · decide
  · decide

/-- Claim C1 (amended): a component is materialized to a file if and only if
its first section tagged `vue`, `template` or `component` exists and has
non-blank code (`html` sections count as template candidates inside `buildSFC`
but do not qualify a component for materialization); the number of files
written equals the number of qualifying components, and the html-only example
input yields no file at all. -/
theorem C1_materialization_gate :
    (∀ comps : List Component,
      (writeComponentsToApp comps).length = (comps.filter qualifies).length) ∧
    writeComponentsToApp
        (parseBlocks (lit "// ===== Component: Foo =====\n// ---- Root (html) ----\n<div>hi</div>\n"))
        = [] := by
  refine ⟨writeComponents_length, by decide⟩

/-! ## Claim C4 -/

/-- Claim C4 is false as stated: sanitizing the all-punctuation name `!!!`
yields the empty string before the fallback, and the substituted default is
the constant `Generated`, not a name derived from the component's position
(`Component_1` for index 0). -/
theorem C4_counterexample :
    sanitizeCore (lit "!!!") = [] ∧
    (buildSFC ⟨lit "!!!", []⟩ 0).filename = lit "Generated.vue" ∧
    ¬ (lit "Generated.vue" = lit "Component_1.vue") := by
  refine ⟨by decide, by decide, by decide⟩

/-- Claim C4 (amended): when sanitization of a raw name comes out empty the
substituted default base name is the constant `Generated` (independent of the
component's index); the position-derived default `Component_(i+1)` is used
only when the raw name itself is empty; and sanitization is deterministic, so
the synthesized filename of a component with a non-empty raw name does not
depend on its position. -/
theorem C4_fallback_names :
    (∀ nm : Str, sanitizeCore nm = [] → sanitizeName nm = lit "Generated") ∧
    (∀ (c : Component) (i j : Nat), ¬ (c.name = []) →
      (buildSFC c i).filename = (buildSFC c j).filename) ∧
    (∀ (c : Component) (i : Nat), c.name = [] →
      nameBaseOf c i = sanitizeName (lit "Component_" ++ natToStr (i + 1))) := by
  refine ⟨?_, ?_, ?_⟩
  · intro nm h
    unfold sanitizeName
    simp [h]
  · intro c i j h
    rw [buildSFC_filename, buildSFC_filename]
    unfold compNameOf nameBaseOf
    simp [h]
  · intro c i h
    unfold nameBaseOf
    simp [h]

/-- Witness for `C4_fallback_names` at concrete inputs. -/
theorem C4_fallback_names_witness :
    sanitizeName (lit "!!!") = lit "Generated" ∧
    (buildSFC ⟨lit "A", []⟩ 0).filename = (buildSFC ⟨lit "A", []⟩ 7).filename ∧
    nameBaseOf ⟨[], []⟩ 0 = sanitizeName (lit "Component_" ++ natToStr 1) := by
  refine ⟨C4_fallback_names.1 (lit "!!!") (by decide),
    C4_fallback_names.2.1 ⟨lit "A", []⟩ 0 7 (by decide),
    C4_fallback_names.2.2 ⟨[], []⟩ 0 (by decide)⟩

/-! ## Claim C5 -/

/-- Claim C5 is false as stated: here the second script candidate is fully
brace-wrapped, yet the synthesizer concatenates both candidates as raw setup
code and emits no inline style binding, because only the first candidate is
tested. -/
theorem C5_counterexample :
    braceWrapped (trimJS (lit "\x7b color: \x27red\x27 \x7d")) = true ∧
    (sfcResolved ⟨lit "J", [⟨lit "S", lit "js", lit "let x = 1"⟩,
        ⟨lit "T", lit "js", lit "\x7b color: \x27red\x27 \x7d"⟩]⟩).setup
      = lit "let x = 1\n\x7b color: \x27red\x27 \x7d\n" ∧
    containsSub (lit "inlineStyle")
      (buildSFC ⟨lit "J", [⟨lit "S", lit "js", lit "let x = 1"⟩,
        ⟨lit "T", lit "js", lit "\x7b color: \x27red\x27 \x7d"⟩]⟩ 0).content = false := by
  refine ⟨by decide, by decide, by decide⟩

/-- Claim C5 (amended): only the first script candidate's trimmed text is
tested for brace-wrapping.  If the first candidate is brace-wrapped it becomes
the inline style variable and the template is wrapped in a style-binding
element (unless it already mentions `:style`); otherwise all script candidates
are concatenated verbatim as setup code, even when a later candidate is
brace-wrapped. -/
theorem C5_first_candidate_decides :
    ∀ (c : Component) (f : Str) (rest : List Str),
      (partsOf c).js = f :: rest →
      (braceWrapped (trimJS f) = true →
        (sfcResolved c).setup = lit "const inlineStyle = " ++ trimJS f ++ lit "\n" ∧
        (sfcResolved c).tpl =
          (if containsSub (lit ":style") (templateBase c) then templateBase c
           else wrapStyle (templateBase c))) ∧
      (braceWrapped (trimJS f) = false →
        (sfcResolved c).setup = joinSep (lit "\n") (f :: rest) ++ lit "\n" ∧
        (sfcResolved c).tpl = templateBase c) := by
  intro c f rest hjs
  unfold sfcResolved resolveScript
  rw [hjs]
  constructor
  · intro hb
    simp [hb]
  · intro hb
    simp [hb]

/-- Witness for `C5_first_candidate_decides`: a brace-wrapped first candidate
produces the inline style setup. -/
theorem C5_first_candidate_decides_witness :
    (sfcResolved ⟨lit "K", [⟨lit "S", lit "js", lit " \x7b a: 1 \x7d "⟩]⟩).setup
      = lit "const inlineStyle = " ++ trimJS (lit " \x7b a: 1 \x7d ") ++ lit "\n" := by
  exact ((C5_first_candidate_decides ⟨lit "K", [⟨lit "S", lit "js", lit " \x7b a: 1 \x7d "⟩]⟩
    (lit " \x7b a: 1 \x7d ") [] (by decide)).1 (by decide)).1

/-! ## Claim C10 -/

/-- Claim C10 is false in its concrete example: for the raw name `- -` the
first sanitization pass yields `-_-`, whose strict pass leaves the underscore,
so the filename is `_.vue`, not `.vue`. -/
theorem C10_counterexample :
    (buildSFC ⟨lit "- -", [⟨lit "R", lit "vue", lit "<div/>"⟩]⟩ 0).filename = lit "_.vue" ∧
    ¬ (lit "_.vue" = lit ".vue") := by
  refine ⟨by decide, by decide⟩

/-- Claim C10 (amended): every synthesized filename is the strict identifier
(second sanitization pass) followed by `.vue`, and that identifier contains
only characters in `[A-Za-z0-9_]`.  A raw name consisting solely of hyphens
(for example `-`) sanitizes to a non-empty base that the strict pass empties,
so the synthesizer returns the filename `.vue` and the fallback script
`export default { name: '' }` with an empty name. -/
theorem C10_strict_identifier :
    (∀ (c : Component) (i : Nat),
      (buildSFC c i).filename = compNameOf c i ++ lit ".vue" ∧
      (compNameOf c i).all isStrictChar = true) ∧
    (buildSFC ⟨lit "-", []⟩ 0).filename = lit ".vue" ∧
    containsSub (lit "export default \x7b name: \x27\x27 \x7d")
      (buildSFC ⟨lit "-", []⟩ 0).content = true := by
  refine ⟨?_, by decide, by decide⟩
  intro c i
  refine ⟨buildSFC_filename c i, ?_⟩
  unfold compNameOf
  simp only [List.all_eq_true]
  intro a ha
  exact (List.mem_filter.mp ha).2

/-! ## Claim C2 -/

/-- Claim C2 is false as stated: for two components with the same sanitized
base name `A`, the second file is named `A_2.vue`, not `A_1.vue` — the counter
stored for the first occurrence is 1, and the second occurrence uses the
incremented counter 2 as its suffix. -/
theorem C2_counterexample :
    (writeComponentsToApp [⟨lit "A", [⟨lit "R", lit "vue", lit "<div/>"⟩]⟩,
        ⟨lit "A", [⟨lit "R", lit "vue", lit "<div/>"⟩]⟩]).map Prod.fst
      = [lit "A.vue", lit "A_2.vue"] ∧
    ¬ ((writeComponentsToApp [⟨lit "A", [⟨lit "R", lit "vue", lit "<div/>"⟩]⟩,
        ⟨lit "A", [⟨lit "R", lit "vue", lit "<div/>"⟩]⟩]).map Prod.fst
      = [lit "A.vue", lit "A_1.vue"]) := by
  refine ⟨by decide, by decide⟩

/-- Claim C2 (amended): the first component with sanitized base name `B` keeps
`B.vue`; every later occurrence is suffixed with the updated counter, so the
second occurrence becomes `B_2.vue` and the third `B_3.vue` — the numeric
suffix equals the occurrence ordinal and starts at 2 for the second
occurrence. -/
theorem C2_collision_suffixes :
    ∀ (c1 c2 c3 : Component) (b : Str),
      qualifies c1 = true → qualifies c2 = true → qualifies c3 = true →
      compNameOf c1 0 = b → compNameOf c2 1 = b → compNameOf c3 2 = b →
      (writeComponentsToApp [c1, c2, c3]).map Prod.fst
        = [b ++ lit ".vue", b ++ lit "_2.vue", b ++ lit "_3.vue"] := by
  intro c1 c2 c3 b q1 q2 q3 hb1 hb2 hb3
  obtain ⟨s1, hf1, ht1⟩ := qualifies_spec c1 q1
  obtain ⟨s2, hf2, ht2⟩ := qualifies_spec c2 q2
  obtain ⟨s3, hf3, ht3⟩ := qualifies_spec c3 q3
  have he : ([c1, c2, c3]).enum = [(0, c1), (1, c2), (2, c3)] := rfl
  unfold writeComponentsToApp
  rw [he]
  simp only [List.foldl]
  rw [writeStep_eval [] [] 0 c1 s1 hf1 ht1]
  simp only [getUsed_nil]
  rw [writeStep_eval _ _ 1 c2 s2 hf2 ht2, hb1, hb2]
  simp only [getUsed_cons_self]
  rw [writeStep_eval _ _ 2 c3 s3 hf3 ht3, hb3]
  simp only [getUsed_cons_self]
  simp only [List.map_append, List.map, buildSFC_filename, hb1]
  have e2 : natToStr (1 + 1) = lit "2" := by decide
  have e3 : natToStr (2 + 1) = lit "3" := by decide
  rw [e2, e3]
  simp [List.append_assoc, lit]

/-- Witness for `C2_collision_suffixes`: three identically named components. -/
theorem C2_collision_suffixes_witness :
    (writeComponentsToApp [⟨lit "A", [⟨lit "R", lit "vue", lit "<div/>"⟩]⟩,
        ⟨lit "A", [⟨lit "R", lit "vue", lit "<div/>"⟩]⟩,
        ⟨lit "A", [⟨lit "R", lit "vue", lit "<div/>"⟩]⟩]).map Prod.fst
      = [lit "A" ++ lit ".vue", lit "A" ++ lit "_2.vue", lit "A" ++ lit "_3.vue"] := by
  exact C2_collision_suffixes
    ⟨lit "A", [⟨lit "R", lit "vue", lit "<div/>"⟩]⟩
    ⟨lit "A", [⟨lit "R", lit "vue", lit "<div/>"⟩]⟩
    ⟨lit "A", [⟨lit "R", lit "vue", lit "<div/>"⟩]⟩
    (lit "A") (by decide) (by decide) (by decide) (by decide) (by decide) (by decide)

/-! ## Claim C3 -/

/-- Claim C3 is false as stated: in the two-`A` collision run the suffix `_2`
is applied (second file `A_2.vue`), yet no written file's header comment
mentions the disambiguated name `A_2` — the header substitution re-inserts the
component's original name. -/
theorem C3_counterexample :
    (writeComponentsToApp [⟨lit "A", [⟨lit "R", lit "vue", lit "<div/>"⟩]⟩,
        ⟨lit "A", [⟨lit "R", lit "vue", lit "<div/>"⟩]⟩]).map Prod.fst
      = [lit "A.vue", lit "A_2.vue"] ∧
    (writeComponentsToApp [⟨lit "A", [⟨lit "R", lit "vue", lit "<div/>"⟩]⟩,
        ⟨lit "A", [⟨lit "R", lit "vue", lit "<div/>"⟩]⟩]).map
        (fun p => containsSub (lit "Generated from Figma export: A_2") p.2)
      = [false, false] := by
  refine ⟨by decide, by decide⟩

/-- Claim C3 (amended): when a numeric suffix is applied, the internal
default-export name is rewritten to the disambiguated name, but the header
comment is rewritten with the component's original raw name: the header
substitution replaces a well-formed header by one naming exactly the string it
is given, and `writeComponentsToApp` passes the original `c.name`; in the
two-`A` run both headers still read `A` while only the second script names
`A_2`. -/
theorem C3_rename_targets :
    (∀ (nm x rest : Str), x.all (fun c => ¬ (c = '>')) = true →
      replHeaderComment nm (lit "<!-- Generated from Figma export: " ++ x ++ lit " -->" ++ rest)
        = lit "<!-- Generated from Figma export: " ++ nm ++ lit " -->" ++ rest) ∧
    (writeComponentsToApp [⟨lit "A", [⟨lit "R", lit "vue", lit "<div/>"⟩]⟩,
        ⟨lit "A", [⟨lit "R", lit "vue", lit "<div/>"⟩]⟩]).map
        (fun p => containsSub (lit "Generated from Figma export: A -->") p.2)
      = [true, true] ∧
    (writeComponentsToApp [⟨lit "A", [⟨lit "R", lit "vue", lit "<div/>"⟩]⟩,
        ⟨lit "A", [⟨lit "R", lit "vue", lit "<div/>"⟩]⟩]).map
        (fun p => containsSub (lit "export default \x7b name: \x27A_2\x27 \x7d") p.2)
      = [false, true] := by
  refine ⟨?_, by decide, by decide⟩
  intro nm x rest hx
  have hall : ∀ c ∈ x, (fun c => decide ¬ (c = '>')) c = true := by
    simpa [List.all_eq_true] using hx
  have harrow : lit " -->" = [' ', '-', '-', '>'] := by decide
  have hs : lit "<!-- Generated from Figma export: " ++ x ++ lit " -->" ++ rest
      = lit "<!-- Generated from Figma export: " ++ (x ++ ([' ', '-', '-'] ++ ('>' :: rest))) := by
    rw [harrow]; simp [List.append_assoc]
  have hm : matchHeaderAt (lit "<!-- Generated from Figma export: " ++ x ++ lit " -->" ++ rest)
      = some ((lit "<!-- Generated from Figma export: " ++ x ++ lit " -->").length) := by
    rw [hs]
    unfold matchHeaderAt
    rw [dropPre_self_append]
    simp only [Option.bind_eq_bind, Option.some_bind]
    have htw : (x ++ ([' ', '-', '-'] ++ ('>' :: rest))).takeWhile (fun c => ¬ (c = '>'))
        = x ++ [' ', '-', '-'] := by
      rw [takeWhile_append_all x _ hall]
      simp [List.takeWhile_cons]
    have hdw : (x ++ ([' ', '-', '-'] ++ ('>' :: rest))).dropWhile (fun c => ¬ (c = '>'))
        = '>' :: rest := by
      rw [dropWhile_append_all x _ hall]
      simp [List.dropWhile_cons]
    rw [htw, hdw]
    have hend : endsWithLit (lit "--") (x ++ [' ', '-', '-']) = true := by
      unfold endsWithLit
      have hl : (lit "--").length = 2 := by decide
      have hr : (lit "--").reverse = ['-', '-'] := by decide
      rw [hl, hr]
      simp [List.take_succ_cons]
    simp only [hend, List.isEmpty_cons, Bool.not_false, Bool.and_self, if_pos]
    congr 1
    simp [List.length_append, lit]
    omega
  unfold replHeaderComment
  have hcons : lit "<!-- Generated from Figma export: " ++ x ++ lit " -->" ++ rest
      = '<' :: (lit "!-- Generated from Figma export: " ++ x ++ lit " -->" ++ rest) := by
    have h0 : lit "<!-- Generated from Figma export: "
        = '<' :: lit "!-- Generated from Figma export: " := by decide
    rw [h0]; simp
  rw [hcons] at hm ⊢
  rw [replScan_cons_match _ _ _ _ _ hm]
  rw [← hcons]
  have hsplit : lit "<!-- Generated from Figma export: " ++ x ++ lit " -->" ++ rest
      = (lit "<!-- Generated from Figma export: " ++ x ++ lit " -->") ++ rest := by
    simp [List.append_assoc]
  rw [hsplit, List.drop_left]

/-- Witness for `C3_rename_targets`: the header substitution applied to a
concrete header inserts the given name. -/
theorem C3_rename_targets_witness :
    replHeaderComment (lit "B_2")
        (lit "<!-- Generated from Figma export: " ++ lit "B" ++ lit " -->" ++ lit "\nrest")
      = lit "<!-- Generated from Figma export: " ++ lit "B_2" ++ lit " -->" ++ lit "\nrest" := by
  exact C3_rename_targets.1 (lit "B_2") (lit "B") (lit "\nrest") (by decide)

/-! ## Claim C6 -/

/-- Claim C6 is false as stated: a component whose only section is
css-tagged with bare declarations is skipped entirely by the importer (no
vue/template/component section), so no file is produced for it at all. -/
theorem C6_counterexample :
    writeComponentsToApp [⟨lit "Box", [⟨lit "S", lit "css", lit "color: red;\n"⟩]⟩] = [] ∧
    looksLikeDecls (lit "color: red;\n") = true := by
  refine ⟨by decide, by decide⟩

/-- Claim C6 (amended): a component whose only sections are css-tagged never
qualifies for materialization, so the toolchain writes no file for it;
`buildSFC` itself, on such a component matching the bare-declaration
heuristic, does produce a document with an empty style block and a setup
script defining the inline style variable from the camel-cased declarations. -/
theorem C6_css_only :
    (∀ comps : List Component, (∀ c ∈ comps, qualifies c = false) →
      writeComponentsToApp comps = []) ∧
    (∀ (c : Component), ¬ (c.sections = []) →
      (∀ s ∈ c.sections, containsSub (lit "css") s.lang = true) →
      looksLikeDecls (joinSep (lit "\n") (c.sections.map (fun s => s.code))) = true →
      (sfcResolved c).css = [] ∧
      (sfcResolved c).setup = lit "const inlineStyle = " ++
        cssDeclsToJsObject (joinSep (lit "\n") (c.sections.map (fun s => s.code))) ++ lit "\n" ∧
      styleOf (sfcResolved c).css = [] ∧ qualifies c = false) ∧
    cssDeclsToJsObject (lit "background-color: red; font-size: 12px;")
      = lit "\x7b\n  backgroundColor: \x27red\x27,\n  fontSize: \x2712px\x27\n\x7d" := by
  refine ⟨?_, ?_, by decide⟩
  · intro comps h
    rw [writeComponents_eq_nil_iff]
    rw [List.filter_eq_nil_iff]
    intro a ha
    simp [h a ha]
  · intro c hne hcss hdecl
    have hparts : partsOf c = ⟨[], c.sections.map (fun s => s.code), []⟩ := by
      unfold partsOf
      rw [classify_all_css c.sections ⟨[], [], []⟩ hcss]
      simp
    have hq : qualifies c = false := by
      unfold qualifies
      rw [findTpl_none_of_css c hcss]
    unfold sfcResolved
    rw [hparts]
    cases hsec : c.sections with
    | nil => exact absurd hsec hne
    | cons s ss =>
      simp only [hsec, List.map_cons]
      unfold resolveScript
      rw [hsec] at hdecl
      simp only [List.map_cons] at hdecl
      simp [hdecl, hq, styleOf]

/-- Witness for `C6_css_only` at a concrete css-only component. -/
theorem C6_css_only_witness :
    writeComponentsToApp [⟨lit "Box", [⟨lit "S", lit "css", lit "color: red;\n"⟩]⟩] = [] ∧
    (sfcResolved ⟨lit "Box", [⟨lit "S", lit "css", lit "color: red;\n"⟩]⟩).css = [] := by
  refine ⟨C6_css_only.1 [⟨lit "Box", [⟨lit "S", lit "css", lit "color: red;\n"⟩]⟩]
      (by decide), ?_⟩
  exact (C6_css_only.2.1 ⟨lit "Box", [⟨lit "S", lit "css", lit "color: red;\n"⟩]⟩
    (by decide) (by decide) (by decide)).1

/-! ## Claim C7 -/

/-- Claim C7 (confirmed): the run exits with code 1 exactly in the four
situations — missing input file, missing target directory, zero parsed
components, zero components with usable template sections — and in the two
empty-result situations no component file has been written when the process
terminates. -/
theorem C7_exit_conditions :
    ∀ (ie te : Bool) (content : Str),
      ((mainModel ie te content).outcome ≠ MainOutcome.success ↔
        (ie = false ∨ te = false ∨ parseBlocks content = [] ∨
          (parseBlocks content).filter qualifies = [])) ∧
      (((mainModel ie te content).outcome = MainOutcome.exitNoComponents ∨
        (mainModel ie te content).outcome = MainOutcome.exitNoFiles) →
        (mainModel ie te content).written = []) := by
  intro ie te content
  cases ie with
  | false => simp [mainModel]
  | true =>
    cases te with
    | false => simp [mainModel]
    | true =>
      by_cases hc : parseBlocks content = []
      · simp [mainModel, hc]
      · by_cases hf : writeComponentsToApp (parseBlocks content) = []
        · have hfil : (parseBlocks content).filter qualifies = [] :=
            (writeComponents_eq_nil_iff _).mp hf
          simp [mainModel, hc, hf, hfil]
        · have hfil : ¬ ((parseBlocks content).filter qualifies = []) := by
            intro h
            exact hf ((writeComponents_eq_nil_iff _).mpr h)
          simp [mainModel, hc, hf, hfil]

/-- Witness for `C7_exit_conditions`: an empty parse exits without writing
any component file. -/
theorem C7_exit_conditions_witness :
    (mainModel true true (lit "")).written = [] := by
  exact (C7_exit_conditions true true (lit "")).2 (Or.inl (by decide))

/-! ## Claim C8 -/

def isAnyHeader (raw : Str) : Bool :=
  (parseCompHeader (stripTabs raw)).isSome || (parseSecHeader (stripTabs raw)).isSome

def concatNl (ls : List Str) : Str := (ls.map (fun l => l ++ ['\n'])).flatten

def sectionAt (comps : List Component) (i j : Nat) : Option Section :=
  (comps[i]?).bind (fun c => c.sections[j]?)

theorem appendToLast_concat (ss : List Section) (s : Section) (x : Str) :
    appendToLast (ss ++ [s]) x = ss ++ [⟨s.title, s.lang, s.code ++ x⟩] := by
  unfold appendToLast
  rw [List.getLast?_concat, List.dropLast_concat]

theorem lineStep_body (d : List Component) (nm : Str) (ss0 : List Section)
    (s : Section) (l : Str) (h : isAnyHeader l = false) :
    lineStep (d, some ⟨nm, ss0 ++ [s]⟩) l
      = (d, some ⟨nm, ss0 ++ [⟨s.title, s.lang, s.code ++ (l ++ ['\n'])⟩]⟩) := by
  have h1 : parseCompHeader (stripTabs l) = none := by
    cases hc : parseCompHeader (stripTabs l) with
    | none => rfl
    | some _ => unfold isAnyHeader at h; rw [hc] at h; simp at h
  have h2 : parseSecHeader (stripTabs l) = none := by
    cases hc : parseSecHeader (stripTabs l) with
    | none => rfl
    | some _ => unfold isAnyHeader at h; rw [hc] at h; simp at h
  unfold lineStep
  simp only [h1, h2]
  have hne : ¬ (ss0 ++ [s] = ([] : List Section)) := by simp
  simp [hne, appendToLast_concat]

theorem bodyFold (body : List Str) :
    ∀ (d : List Component) (nm : Str) (ss0 : List Section) (t0 l0 k : Str),
      (∀ l ∈ body, isAnyHeader l = false) →
      body.foldl lineStep (d, some ⟨nm, ss0 ++ [⟨t0, l0, k⟩]⟩)
        = (d, some ⟨nm, ss0 ++ [⟨t0, l0, k ++ concatNl body⟩]⟩) := by
  induction body with
  | nil => intro d nm ss0 t0 l0 k _; simp [concatNl]
  | cons l body ih =>
    intro d nm ss0 t0 l0 k h
    have hl : isAnyHeader l = false := h l (by simp)
    simp only [List.foldl_cons]
    rw [lineStep_body d nm ss0 ⟨t0, l0, k⟩ l hl]
    rw [ih d nm ss0 t0 l0 (k ++ (l ++ ['\n'])) (fun x hx => h x (by simp [hx]))]
    simp [concatNl]

theorem lineStep_fst (st : List Component × Option Component) (l : Str) :
    ∃ e, (lineStep st l).1 = st.1 ++ e := by
  obtain ⟨d, cur⟩ := st
  unfold lineStep
  cases hc : parseCompHeader (stripTabs l) with
  | some nm => exact ⟨cur.toList, by simp [hc, pushCur]⟩
  | none =>
    cases hs : parseSecHeader (stripTabs l) with
    | some p =>
      obtain ⟨t, lg⟩ := p
      cases cur with
      | some c => exact ⟨[], by simp [hc, hs]⟩
      | none => exact ⟨[], by simp [hc, hs]⟩
    | none =>
      cases cur with
      | some c =>
        by_cases he : c.sections = []
        · exact ⟨[], by simp [hc, hs, he]⟩
        · exact ⟨[], by simp [hc, hs, he]⟩
      | none => exact ⟨[], by simp [hc, hs]⟩

theorem parseFrom_done (ls : List Str) :
    ∀ (st : List Component × Option Component),
      ∃ rest, parseLinesFrom st ls = st.1 ++ rest := by
  induction ls with
  | nil => intro st; exact ⟨st.2.toList, rfl⟩
  | cons l ls ih =>
    intro st
    obtain ⟨e, he⟩ := lineStep_fst st l
    obtain ⟨r, hr⟩ := ih (lineStep st l)
    refine ⟨e ++ r, ?_⟩
    have : parseLinesFrom st (l :: ls) = parseLinesFrom (lineStep st l) ls := rfl
    rw [this, hr, he, List.append_assoc]

theorem parseFrom_stable (ls : List Str) (d : List Component)
    (cur : Option Component) (i : Nat) (hi : i < d.length) :
    (parseLinesFrom (d, cur) ls)[i]? = d[i]? := by
  obtain ⟨r, hr⟩ := parseFrom_done ls (d, cur)
  rw [hr, List.getElem?_append, if_pos hi]

theorem parseFrom_cons (st : List Component × Option Component) (l : Str) (ls : List Str) :
    parseLinesFrom st (l :: ls) = parseLinesFrom (lineStep st l) ls := rfl

theorem parseFrom_append (st : List Component × Option Component) (a b : List Str) :
    parseLinesFrom st (a ++ b) = parseLinesFrom (a.foldl lineStep st) b := by
  unfold parseLinesFrom
  rw [List.foldl_append]

theorem appendToLast_length (ss : List Section) (x : Str) (h : ¬ (ss = [])) :
    (appendToLast ss x).length = ss.length := by
  unfold appendToLast
  cases hg : ss.getLast? with
  | none => exact absurd (List.getLast?_eq_none_iff.mp hg) h
  | some s =>
    simp [List.length_dropLast]
    have := List.length_pos.mpr h
    omega

theorem appendToLast_getElem (ss : List Section) (x : Str) (j : Nat)
    (hj : j + 1 < ss.length) : (appendToLast ss x)[j]? = ss[j]? := by
  unfold appendToLast
  cases hg : ss.getLast? with
  | none =>
    have : ss = [] := List.getLast?_eq_none_iff.mp hg
    rw [this] at hj
    simp at hj
  | some s =>
    rw [List.getElem?_append, if_pos (by simp [List.length_dropLast]; omega)]
    rw [List.dropLast_eq_take, List.getElem?_take]
    simp only [if_pos (by omega : j < ss.length - 1)]

theorem secStable (ls : List Str) :
    ∀ (d : List Component) (c : Component) (j : Nat) (s : Section),
      c.sections[j]? = some s → j + 1 < c.sections.length →
      sectionAt (parseLinesFrom (d, some c) ls) d.length j = some s := by
  induction ls with
  | nil =>
    intro d c j s hj hlt
    unfold parseLinesFrom sectionAt
    simp only [List.foldl_nil, pushCur, Option.toList_some]
    rw [List.getElem?_append, if_neg (by omega)]
    simp [hj]
  | cons l ls ih =>
    intro d c j s hj hlt
    rw [parseFrom_cons]
    unfold lineStep
    cases hc : parseCompHeader (stripTabs l) with
    | some nm =>
      simp only [hc, pushCur, Option.toList_some]
      unfold sectionAt
      rw [parseFrom_stable ls (d ++ [c]) _ d.length (by simp)]
      rw [List.getElem?_append, if_neg (by omega)]
      simp [hj]
    | none =>
      cases hs : parseSecHeader (stripTabs l) with
      | some p =>
        obtain ⟨t, lg⟩ := p
        simp only [hc, hs]
        have hj' : (c.sections ++ [(⟨trimJS t, lowerStr (trimJS lg), []⟩ : Section)])[j]? = some s := by
          rw [List.getElem?_append, if_pos (by omega)]
          exact hj
        have hlt' : j + 1 < (c.sections ++ [(⟨trimJS t, lowerStr (trimJS lg), []⟩ : Section)]).length := by
          simp
          omega
        exact ih d ⟨c.name, c.sections ++ [(⟨trimJS t, lowerStr (trimJS lg), []⟩ : Section)]⟩ j s hj' hlt'
      | none =>
        have hne : ¬ (c.sections = []) := by
          intro he
          rw [he] at hlt
          simp at hlt
        simp only [hc, hs, hne, if_neg]
        have hj' : (appendToLast c.sections (l ++ ['\n']))[j]? = some s := by
          rw [appendToLast_getElem c.sections _ j hlt]
          exact hj
        have hlt' : j + 1 < (appendToLast c.sections (l ++ ['\n'])).length := by
          rw [appendToLast_length c.sections _ hne]
          exact hlt
        exact ih d ⟨c.name, appendToLast c.sections (l ++ ['\n'])⟩ j s hj' hlt'

theorem getElem_concat_len {α : Type} (xs : List α) (a : α) :
    (xs ++ [a])[xs.length]? = some a := by
  rw [List.getElem?_append, if_neg (by omega)]
  simp

/-- Claim C8 (confirmed): for every parsed section, the section's `code`
field is exactly the concatenation, in order, of the raw non-header lines
between the section's header and the next header (or end of input), each
followed by its own trailing newline, and nothing else. -/
theorem C8_section_code :
    ∀ (pre : List Str) (sh : Str) (body post : List Str) (done : List Component)
      (c : Component) (t lg : Str),
      pre.foldl lineStep ([], none) = (done, some c) →
      parseCompHeader (stripTabs sh) = none →
      parseSecHeader (stripTabs sh) = some (t, lg) →
      (∀ l ∈ body, isAnyHeader l = false) →
      (∀ p ps, post = p :: ps → isAnyHeader p = true) →
      sectionAt (parseLines (pre ++ sh :: (body ++ post))) done.length c.sections.length
        = some ⟨trimJS t, lowerStr (trimJS lg), concatNl body⟩ := by
  intro pre sh body post done c t lg hpre hshc hshs hbody hpost
  unfold parseLines
  rw [parseFrom_append _ pre _, hpre, parseFrom_cons]
  have hstep : lineStep (done, some c) sh
      = (done, some ⟨c.name, c.sections ++ [(⟨trimJS t, lowerStr (trimJS lg), []⟩ : Section)]⟩) := by
    unfold lineStep
    simp [hshc, hshs]
  rw [hstep, parseFrom_append _ body post]
  have hbf := bodyFold body done c.name c.sections (trimJS t) (lowerStr (trimJS lg)) [] hbody
  simp only [List.nil_append] at hbf
  rw [hbf]
  cases post with
  | nil =>
    unfold parseLinesFrom sectionAt
    simp only [List.foldl_nil, pushCur, Option.toList_some]
    rw [getElem_concat_len]
    simp only [Option.some_bind]
    exact getElem_concat_len _ _
  | cons p ps =>
    have hph := hpost p ps rfl
    rw [parseFrom_cons]
    cases hpc : parseCompHeader (stripTabs p) with
    | some nm =>
      have hst : lineStep (done, some ⟨c.name,
          c.sections ++ [(⟨trimJS t, lowerStr (trimJS lg), concatNl body⟩ : Section)]⟩) p
          = (done ++ [⟨c.name, c.sections ++
              [(⟨trimJS t, lowerStr (trimJS lg), concatNl body⟩ : Section)]⟩],
             some ⟨trimJS nm, []⟩) := by
        unfold lineStep
        simp [hpc, pushCur]
      rw [hst]
      unfold sectionAt
      rw [parseFrom_stable ps _ _ done.length (by simp)]
      rw [getElem_concat_len]
      simp only [Option.some_bind]
      exact getElem_concat_len _ _
    | none =>
      have hps : ∃ q, parseSecHeader (stripTabs p) = some q := by
        unfold isAnyHeader at hph
        rw [hpc] at hph
        simp at hph
        exact Option.isSome_iff_exists.mp hph
      obtain ⟨⟨t2, lg2⟩, hq⟩ := hps
      have hst : lineStep (done, some ⟨c.name,
          c.sections ++ [(⟨trimJS t, lowerStr (trimJS lg), concatNl body⟩ : Section)]⟩) p
          = (done, some ⟨c.name,
              (c.sections ++ [(⟨trimJS t, lowerStr (trimJS lg), concatNl body⟩ : Section)]) ++
              [(⟨trimJS t2, lowerStr (trimJS lg2), []⟩ : Section)]⟩) := by
        unfold lineStep
        simp [hpc, hq]
      rw [hst]
      apply secStable
      · rw [List.getElem?_append, if_pos (by simp)]
        exact getElem_concat_len _ _
      · simp

/-- Witness for `C8_section_code` on a concrete input. -/
theorem C8_section_code_witness :
    sectionAt (parseLines ([lit "// ===== Component: X ====="] ++
        (lit "// ---- T (Js) ----") :: ([lit "a", lit "b"] ++ [lit "// ---- U (css) ----"])))
        0 0
      = some ⟨trimJS (lit "T "), lowerStr (trimJS (lit "Js")), concatNl [lit "a", lit "b"]⟩ := by
  have h := C8_section_code [lit "// ===== Component: X ====="] (lit "// ---- T (Js) ----")
    [lit "a", lit "b"] [lit "// ---- U (css) ----"] [] ⟨lit "X", []⟩ (lit "T ") (lit "Js")
    (by decide) (by decide) (by decide) (by decide)
    (by intro p ps hpp; cases hpp; decide)
  simpa using h

/-! ## Claim C9 -/

theorem splitChar_ne_nil (sep : Char) (l : Str) : ¬ (splitChar sep l = []) := by
  cases l with
  | nil => simp [splitChar]
  | cons c rest =>
    unfold splitChar
    by_cases h : c = sep
    · simp [h]
    · simp only [h, if_neg]
      cases hr : splitChar sep rest <;> simp

theorem splitChar_append_cons (sep : Char) :
    ∀ (a b : Str), splitChar sep (a ++ sep :: b) = splitChar sep a ++ splitChar sep b := by
  intro a
  induction a with
  | nil => intro b; simp [splitChar]
  | cons c a ih =>
    intro b
    by_cases h : c = sep
    · subst h
      simp [List.cons_append, splitChar, ih b]
    · cases hr : splitChar sep a with
      | nil => exact absurd hr (splitChar_ne_nil sep a)
      | cons x xs =>
        have hib := ih b
        rw [hr] at hib
        simp only [List.cons_append, splitChar, if_neg h, List.append_eq]
        rw [hib, hr]
        simp

theorem splitChar_all_not (sep : Char) :
    ∀ (a : Str), (∀ c ∈ a, ¬ (c = sep)) → splitChar sep a = [a] := by
  intro a
  induction a with
  | nil => intro _; rfl
  | cons c a ih =>
    intro h
    have hc : ¬ (c = sep) := h c (by simp)
    unfold splitChar
    rw [ih (fun d hd => h d (by simp [hd]))]
    simp [hc]

theorem splitChar_concat (sep : Char) :
    ∀ (l : Str), ((splitChar sep l).map (fun p => p ++ [sep])).flatten = l ++ [sep] := by
  intro l
  induction l with
  | nil => rfl
  | cons c rest ih =>
    unfold splitChar
    by_cases h : c = sep
    · simp [h, ih]
    · simp only [h, if_neg]
      cases hr : splitChar sep rest with
      | nil => exact absurd hr (splitChar_ne_nil sep rest)
      | cons x xs =>
        rw [hr] at ih
        simp only [List.map_cons, List.flatten_cons] at ih
        simp only [hr, if_neg h, h, if_false, List.map_cons, List.flatten_cons]
        have hstep : ((c :: x) ++ [sep]) ++ (List.map (fun p => p ++ [sep]) xs).flatten
            = c :: ((x ++ [sep]) ++ (List.map (fun p => p ++ [sep]) xs).flatten) := by
          simp
        rw [hstep, ih]
        simp

theorem mem_splitChar_sub (sep : Char) (l s : Str) (hl : l ∈ splitChar sep s)
    (c : Char) (hc : c ∈ l) : c ∈ s ∨ c = sep := by
  have h1 : c ∈ ((splitChar sep s).map (fun p => p ++ [sep])).flatten := by
    rw [List.mem_flatten]
    exact ⟨l ++ [sep], List.mem_map_of_mem _ hl, by simp [hc]⟩
  rw [splitChar_concat] at h1
  rcases List.mem_append.mp h1 with h | h
  · exact Or.inl h
  · simp at h
    exact Or.inr h

theorem dropLast_append_of_getLast? {α : Type} :
    ∀ (l : List α) (a : α), l.getLast? = some a → l.dropLast ++ [a] = l := by
  intro l
  induction l with
  | nil => intro a h; simp at h
  | cons x xs ih =>
    intro a h
    cases xs with
    | nil => simp at h; simp [h]
    | cons y ys =>
      rw [List.getLast?_cons_cons] at h
      have := ih a h
      simp only [List.dropLast_cons₂, List.cons_append, this]

theorem splitNl_eq_splitChar (s : Str) (h : s.all (fun c => ¬ (c = '\r')) = true) :
    splitNlJS s = splitChar '\n' s := by
  unfold splitNlJS
  have hstrip : ∀ l ∈ splitChar '\n' s, stripTrailCr l = l := by
    intro l hl
    unfold stripTrailCr
    cases hg : l.getLast? with
    | none => simp
    | some c =>
      by_cases hcr : c = '\r'
      · subst hcr
        have hmem : '\r' ∈ l := by
          have hd := dropLast_append_of_getLast? l '\r' hg
          rw [← hd]
          simp
        rcases mem_splitChar_sub '\n' l s hl '\r' hmem with hin | habs
        · rw [List.all_eq_true] at h
          have := h '\r' hin
          simp at this
        · exact absurd habs (by decide)
      · simp [hcr]
  cases hps : (splitChar '\n' s).getLast? with
  | none => exact absurd (List.getLast?_eq_none_iff.mp hps) (splitChar_ne_nil '\n' s)
  | some last =>
    have hmap : (splitChar '\n' s).dropLast.map stripTrailCr = (splitChar '\n' s).dropLast := by
      have hid : ∀ l ∈ (splitChar '\n' s).dropLast, stripTrailCr l = l := fun l hl =>
        hstrip l ((List.dropLast_sublist (splitChar '\n' s)).subset hl)
      calc (splitChar '\n' s).dropLast.map stripTrailCr
          = (splitChar '\n' s).dropLast.map id := List.map_congr_left hid
        _ = (splitChar '\n' s).dropLast := List.map_id _
    simp only [hps]
    rw [hmap]
    exact dropLast_append_of_getLast? _ last hps

/-- Lines contributed by one code block to the serialized text, as seen by the
importer's line splitter: the section header line, a blank line from the
join, the block's own code lines, and two blank lines from the trailing
newline part plus the join. -/
def blockLines (b : CodeBlock) : List Str :=
  [secHdrLine b, []] ++ splitChar '\n' b.code ++ [[], []]

/-- Lines contributed by one child: its component header line, one blank line,
then the lines of its blocks. -/
def childLines (nm : Str) (bs : List CodeBlock) : List Str :=
  [compHdrLine nm, []] ++ (bs.map blockLines).flatten

def noCr (s : Str) : Bool := s.all (fun c => ¬ (c = '\r'))
def noNl (s : Str) : Bool := s.all (fun c => ¬ (c = '\n'))

/-- Decidable well-formedness of one block for the round trip: its header line
is newline- and CR-free and parses as a section header (and not as a component
header) with the block's trimmed title and lowercased language, its code has
no carriage returns, and no code line reads as a header. -/
def blockOk (b : CodeBlock) : Bool :=
  noNl (secHdrLine b) && noCr (secHdrLine b) && noCr b.code &&
  decide (parseCompHeader (stripTabs (secHdrLine b)) = none) &&
  decide ((parseSecHeader (stripTabs (secHdrLine b))).map
      (fun p => (trimJS p.1, lowerStr (trimJS p.2)))
    = some (trimJS b.title, lowerStr (trimJS b.lang))) &&
  (splitChar '\n' b.code).all (fun l => !(isAnyHeader l))

/-- Decidable well-formedness of one child: its header line is newline- and
CR-free and parses back to the child's trimmed name, and its blocks are all
well formed. -/
def childOk (ch : Str × List CodeBlock) : Bool :=
  noNl (compHdrLine ch.1) && noCr (compHdrLine ch.1) &&
  decide ((parseCompHeader (stripTabs (compHdrLine ch.1))).map trimJS
    = some (trimJS ch.1)) &&
  ch.2.all blockOk

/-- The section the importer reconstructs for one exported block. -/
def expectedSec (b : CodeBlock) : Section :=
  ⟨trimJS b.title, lowerStr (trimJS b.lang), '\n' :: (b.code ++ lit "\n\n\n")⟩

/-- The component the importer reconstructs for one exported child. -/
def expectedComp (ch : Str × List CodeBlock) : Component :=
  ⟨trimJS ch.1, ch.2.map expectedSec⟩

theorem joinSep_all (q : Char → Bool) (hq : q '\n' = true) :
    ∀ parts : List Str, (∀ p ∈ parts, p.all q = true) →
      (joinSep (lit "\n") parts).all q = true := by
  intro parts
  induction parts with
  | nil => intro _; rfl
  | cons p rest ih =>
    intro h
    cases rest with
    | nil => exact h p (by simp)
    | cons p2 r2 =>
      unfold joinSep
      rw [List.all_append, List.all_append]
      have h1 := h p (by simp)
      have h2 := ih (fun x hx => h x (List.mem_cons_of_mem p hx))
      rw [h1, h2]
      simp [lit, hq]

theorem split_joinSep :
    ∀ parts : List Str, ¬ (parts = []) →
      splitChar '\n' (joinSep (lit "\n") parts) = (parts.map (splitChar '\n')).flatten := by
  intro parts
  induction parts with
  | nil => intro h; exact absurd rfl h
  | cons p rest ih =>
    intro _
    cases rest with
    | nil => simp [joinSep]
    | cons p2 r2 =>
      unfold joinSep
      have hassoc : p ++ lit "\n" ++ joinSep (lit "\n") (p2 :: r2)
          = p ++ '\n' :: joinSep (lit "\n") (p2 :: r2) := by
        simp [lit]
      rw [hassoc, splitChar_append_cons, ih (by simp)]
      simp

theorem splitChar_hdr_line (a : Str) (h : noNl a = true) :
    splitChar '\n' (a ++ lit "\n") = [a, []] := by
  have h1 : lit "\n" = '\n' :: ([] : Str) := by decide
  rw [h1, splitChar_append_cons]
  rw [splitChar_all_not '\n' a (by simpa [noNl, List.all_eq_true] using h)]
  rfl

theorem blockPartsLines :
    ∀ bs : List CodeBlock, (∀ b ∈ bs, noNl (secHdrLine b) = true) →
      (((bs.map (fun b => [secHdrLine b ++ lit "\n", b.code, lit "\n"])).flatten).map
          (splitChar '\n')).flatten
        = (bs.map blockLines).flatten := by
  intro bs
  induction bs with
  | nil => intro _; rfl
  | cons b bs ih =>
    intro h
    simp only [List.map_cons, List.flatten_cons, List.map_append, List.flatten_append]
    rw [ih (fun x hx => h x (by simp [hx]))]
    have hsec := splitChar_hdr_line (secHdrLine b) (h b (by simp))
    have hnl : splitChar '\n' (lit "\n") = [[], []] := by decide
    simp only [List.map_cons, List.map_nil, List.flatten_cons, List.flatten_nil, hsec, hnl]
    simp [blockLines]

theorem childPartsLines (nm : Str) (bs : List CodeBlock)
    (h1 : noNl (compHdrLine nm) = true)
    (h2 : ∀ b ∈ bs, noNl (secHdrLine b) = true) :
    (((childParts nm bs).map (splitChar '\n')).flatten) = childLines nm bs := by
  unfold childParts childLines
  simp only [List.map_cons, List.flatten_cons]
  rw [splitChar_hdr_line (compHdrLine nm) h1, blockPartsLines bs h2]

theorem childOk_fields (ch : Str × List CodeBlock) (h : childOk ch = true) :
    noNl (compHdrLine ch.1) = true ∧ noCr (compHdrLine ch.1) = true ∧
    (parseCompHeader (stripTabs (compHdrLine ch.1))).map trimJS = some (trimJS ch.1) ∧
    ∀ b ∈ ch.2, blockOk b = true := by
  unfold childOk at h
  simp only [Bool.and_eq_true, decide_eq_true_eq, List.all_eq_true] at h
  exact ⟨h.1.1.1, h.1.1.2, h.1.2, h.2⟩

theorem blockOk_fields (b : CodeBlock) (h : blockOk b = true) :
    noNl (secHdrLine b) = true ∧ noCr (secHdrLine b) = true ∧ noCr b.code = true ∧
    parseCompHeader (stripTabs (secHdrLine b)) = none ∧
    (parseSecHeader (stripTabs (secHdrLine b))).map
        (fun p => (trimJS p.1, lowerStr (trimJS p.2)))
      = some (trimJS b.title, lowerStr (trimJS b.lang)) ∧
    ∀ l ∈ splitChar '\n' b.code, isAnyHeader l = false := by
  unfold blockOk at h
  simp only [Bool.and_eq_true, decide_eq_true_eq, List.all_eq_true] at h
  refine ⟨h.1.1.1.1.1, h.1.1.1.1.2, h.1.1.1.2, h.1.1.2, h.1.2, ?_⟩
  intro l hl
  have := h.2 l hl
  simpa using this

theorem allPartsLines :
    ∀ children : List (Str × List CodeBlock),
      (∀ ch ∈ children, childOk ch = true) →
      (((children.map (fun ch => childParts ch.1 ch.2)).flatten).map (splitChar '\n')).flatten
        = (children.map (fun ch => childLines ch.1 ch.2)).flatten := by
  intro children
  induction children with
  | nil => intro _; rfl
  | cons ch rest ih =>
    intro h
    have hch := childOk_fields ch (h ch (by simp))
    simp only [List.map_cons, List.flatten_cons, List.map_append, List.flatten_append]
    rw [childPartsLines ch.1 ch.2 hch.1
      (fun b hb => (blockOk_fields b (hch.2.2.2 b hb)).1)]
    rw [ih (fun x hx => h x (List.mem_cons_of_mem ch hx))]

theorem serializeLines (children : List (Str × List CodeBlock))
    (hne : ¬ (children = []))
    (hok : ∀ ch ∈ children, childOk ch = true) :
    splitNlJS (serializeFrame children)
      = (children.map (fun ch => childLines ch.1 ch.2)).flatten := by
  have hcr : (serializeFrame children).all (fun c => ¬ (c = '\r')) = true := by
    unfold serializeFrame
    apply joinSep_all _ (by decide)
    intro p hp
    rw [List.mem_flatten] at hp
    obtain ⟨l, hl, hpl⟩ := hp
    rw [List.mem_map] at hl
    obtain ⟨ch, hch, rfl⟩ := hl
    have hchf := childOk_fields ch (hok ch hch)
    unfold childParts at hpl
    rcases List.mem_cons.mp hpl with rfl | hp2
    · rw [List.all_append]
      have := hchf.2.1
      unfold noCr at this
      rw [this]
      decide
    · rw [List.mem_flatten] at hp2
      obtain ⟨pl, hpl2, hppl⟩ := hp2
      rw [List.mem_map] at hpl2
      obtain ⟨b, hb, rfl⟩ := hpl2
      have hbf := blockOk_fields b (hchf.2.2.2 b hb)
      simp only [List.mem_cons, List.not_mem_nil, or_false] at hppl
      rcases hppl with rfl | rfl | rfl
      · rw [List.all_append]
        have := hbf.2.1
        unfold noCr at this
        rw [this]
        decide
      · exact hbf.2.2.1
      · decide
  rw [splitNl_eq_splitChar _ hcr]
  unfold serializeFrame
  have hpne : ¬ ((children.map (fun ch => childParts ch.1 ch.2)).flatten = []) := by
    cases children with
    | nil => exact absurd rfl hne
    | cons ch rest =>
      simp [childParts]
  rw [split_joinSep _ hpne]
  exact allPartsLines children hok

theorem lineStep_nil_line (d : List Component) (nm : Str) :
    lineStep (d, some ⟨nm, []⟩) [] = (d, some ⟨nm, []⟩) := by
  have h1 : parseCompHeader (stripTabs []) = none := by decide
  have h2 : parseSecHeader (stripTabs []) = none := by decide
  unfold lineStep
  simp [h1, h2]

theorem blockFold :
    ∀ (bs : List CodeBlock) (d : List Component) (nm0 : Str) (ss0 : List Section),
      (∀ b ∈ bs, blockOk b = true) →
      ((bs.map blockLines).flatten).foldl lineStep (d, some ⟨nm0, ss0⟩)
        = (d, some ⟨nm0, ss0 ++ bs.map expectedSec⟩) := by
  intro bs
  induction bs with
  | nil => intro d nm0 ss0 _; simp
  | cons b bs ih =>
    intro d nm0 ss0 h
    have hbf := blockOk_fields b (h b (by simp))
    obtain ⟨hnl, hcr, hcrc, hcompn, hsecm, hbody⟩ := hbf
    simp only [List.map_cons, List.flatten_cons]
    rw [List.foldl_append]
    have hstep1 : blockLines b = secHdrLine b :: ([] :: (splitChar '\n' b.code ++ [[], []])) := by
      simp [blockLines]
    rw [hstep1, List.foldl_cons]
    cases hsec : parseSecHeader (stripTabs (secHdrLine b)) with
    | none => rw [hsec] at hsecm; simp at hsecm
    | some p =>
      rw [hsec] at hsecm
      simp only [Option.map_some', Option.some_inj, Prod.mk.injEq] at hsecm
      have hls : lineStep (d, some ⟨nm0, ss0⟩) (secHdrLine b)
          = (d, some ⟨nm0, ss0 ++ [(⟨trimJS b.title, lowerStr (trimJS b.lang), []⟩ : Section)]⟩) := by
        unfold lineStep
        simp [hcompn, hsec, hsecm.1, hsecm.2]
      rw [hls]
      have hbodyall : ∀ l ∈ ([] :: (splitChar '\n' b.code ++ [[], []]) : List Str),
          isAnyHeader l = false := by
        intro l hl
        rcases List.mem_cons.mp hl with rfl | hl2
        · decide
        · rcases List.mem_append.mp hl2 with hl3 | hl3
          · exact hbody l hl3
          · simp only [List.mem_cons, List.not_mem_nil, or_false] at hl3
            rcases hl3 with rfl | rfl <;> decide
      have hbf2 := bodyFold ([] :: (splitChar '\n' b.code ++ [[], []])) d nm0 ss0
        (trimJS b.title) (lowerStr (trimJS b.lang)) [] hbodyall
      simp only [List.nil_append] at hbf2
      rw [hbf2]
      have hcode : concatNl ([] :: (splitChar '\n' b.code ++ [[], []]))
          = '\n' :: (b.code ++ lit "\n\n\n") := by
        unfold concatNl
        simp only [List.map_cons, List.map_append, List.flatten_cons, List.flatten_append]
        rw [splitChar_concat '\n' b.code]
        simp [lit]
      rw [hcode]
      have hexp : (⟨trimJS b.title, lowerStr (trimJS b.lang),
          '\n' :: (b.code ++ lit "\n\n\n")⟩ : Section) = expectedSec b := rfl
      rw [hexp, ih d nm0 (ss0 ++ [expectedSec b]) (fun x hx => h x (by simp [hx]))]
      simp

theorem childFold :
    ∀ (children : List (Str × List CodeBlock)) (d : List Component) (cur : Option Component),
      (∀ ch ∈ children, childOk ch = true) →
      parseLinesFrom (d, cur) ((children.map (fun ch => childLines ch.1 ch.2)).flatten)
        = (d ++ cur.toList) ++ children.map expectedComp := by
  intro children
  induction children with
  | nil => intro d cur _; simp [parseLinesFrom, pushCur]
  | cons ch rest ih =>
    intro d cur h
    have hchf := childOk_fields ch (h ch (by simp))
    simp only [List.map_cons, List.flatten_cons]
    rw [parseFrom_append]
    have hcl : childLines ch.1 ch.2
        = compHdrLine ch.1 :: ([] :: (ch.2.map blockLines).flatten) := by
      simp [childLines]
    rw [hcl]
    simp only [List.foldl_cons]
    cases hph : parseCompHeader (stripTabs (compHdrLine ch.1)) with
    | none => rw [hph] at hchf; simp at hchf
    | some nm =>
      have htr : trimJS nm = trimJS ch.1 := by
        have := hchf.2.2.1
        rw [hph] at this
        simpa using this
      have hls : lineStep (d, cur) (compHdrLine ch.1)
          = (d ++ cur.toList, some ⟨trimJS ch.1, []⟩) := by
        unfold lineStep
        simp [hph, pushCur, htr]
      rw [hls, lineStep_nil_line]
      rw [blockFold ch.2 (d ++ cur.toList) (trimJS ch.1) []
        (fun b hb => hchf.2.2.2 b hb)]
      simp only [List.nil_append]
      have hec : (⟨trimJS ch.1, ch.2.map expectedSec⟩ : Component) = expectedComp ch := rfl
      rw [hec]
      rw [ih (d ++ cur.toList) (some (expectedComp ch))
        (fun x hx => h x (List.mem_cons_of_mem ch hx))]
      simp

/-- Claim C9 (amended): for well-formed children — names, titles and languages
free of newlines, carriage returns and header-like text, and code whose lines
never match a header pattern — parsing the serialized frame yields exactly one
component per child, named by the child's trimmed name, whose sections carry
the blocks' trimmed titles and lowercased trimmed languages in order, and
whose code is the block's code surrounded by the blank lines the join
separator introduces (`"\n" ++ code ++ "\n\n\n"`); that code is never
byte-identical to the original block. -/
theorem C9_export_import :
    ∀ children : List (Str × List CodeBlock),
      (∀ ch ∈ children, childOk ch = true) →
      parseBlocks (serializeFrame children) = children.map expectedComp ∧
      ∀ ch ∈ children, ∀ b ∈ ch.2, ¬ ((expectedSec b).code = b.code) := by
  intro children hok
  constructor
  · cases hch : children with
    | nil => decide
    | cons ch rest =>
      have hne : ¬ (children = []) := by rw [hch]; simp
      rw [← hch]
      unfold parseBlocks
      rw [serializeLines children hne hok]
      unfold parseLines
      rw [childFold children [] none hok]
      simp
  · intro ch hch b hb heq
    have hlen := congrArg List.length heq
    simp only [expectedSec, List.length_cons, List.length_append] at hlen
    have : (lit "\n\n\n").length = 3 := by decide
    omega

/-- Claim C9 is false as stated: when a block's code itself contains a line
matching the component-header pattern, parsing the serialized frame of one
child yields two components, not exactly one per child. -/
theorem C9_counterexample :
    (parseBlocks (serializeFrame [(lit "A", [⟨lit "T", lit "js",
        lit "// ===== Component: B ====="⟩])])).length = 2 := by decide

/-- Witness for `C9_export_import` on a concrete one-child frame. -/
theorem C9_export_import_witness :
    parseBlocks (serializeFrame [(lit "Foo", [⟨lit "Root", lit "VUE", lit "<div>hi</div>"⟩])])
      = [expectedComp (lit "Foo", [⟨lit "Root", lit "VUE", lit "<div>hi</div>"⟩])] := by
  have h := C9_export_import [(lit "Foo", [⟨lit "Root", lit "VUE", lit "<div>hi</div>"⟩])]
    (by decide)
  simpa using h.1

end FigmaExport
